import Mathlib

/-!
Verification development for the Wasabi downloader repository.

The repository contains two parallel implementations of the same tool:
a top-level `wasabi_downloader.py` (the "root" flow) and a
`wasabi-downloader/` package (`s3_handler.py` plus its `wasabi_downloader.py`
driver, the "handler" flow).  The definitions below are shallow embeddings of
the functions of both flows:

* `resolveStep` / `latest_valid_versions` embed the per-entry update of
  `s3_handler.list_object_versions_at_timestamp` (s3_handler.py lines 92-99);
* `resolveStepV` / `latest_versions_in_time` embed the per-entry update of
  `download_versioned` (wasabi_downloader.py lines 214-226), whose only
  difference is the `entry['Key'].endswith('/')` skip;
* `lovFilter` / `list_object_versions_at_timestamp` embed the post-resolution
  filter of s3_handler.py lines 101-108;
* `toDownloadStep` / `to_download` embed the post-resolution filter of
  wasabi_downloader.py lines 228-231;
* `lopStep` / `list_objects_in_prefix` embed s3_handler.py lines 72-85;
* `relpath`, `joinPath`, `dirname`, `basename`, `rstripSlash` embed the
  `posixpath` operations used by both flows, for the relative,
  already-normalized arguments produced by the S3 key namespace (the common
  current-directory prefix that `posixpath.abspath` adds to both arguments of
  `relpath` cancels inside its common-prefix computation, so it is omitted);
* `map_path_handler` embeds the destination computation of
  `s3_handler.download_objects` (lines 132-140), `map_path_root` the one of
  `download_dir` / `download_versioned` (wasabi_downloader.py lines 180-182
  and 251-252);
* `download_objects_loop` and `download_versioned_loop` embed the two batch
  transfer loops, with the network transfer abstracted as a boolean-valued
  oracle (the per-object `try/except` of the source means each iteration
  records an outcome and the loop always continues);
* `get_object_info`, `download_single_file`, `root_main_download_file` and
  `pkg_main_download_file` embed the single-file flows, with `head_object`
  abstracted as a `String → Option Nat` oracle (`none` models the 404 error).

Timestamps are modelled as microseconds on a linear clock (`Nat`); the only
operations the source performs on them are comparisons and the end-of-day
substitution, both of which this models exactly.
-/

/-- One record of a paginated `list_object_versions` response: the fields of a
`Versions` or `DeleteMarkers` element that the source reads.  `versionId` and
`size` are `Option` because the source accesses them as possibly-missing dict
keys (`'VersionId' in entry`, `entry.get('Size', 0)`, `'Size' in entry`).
`isDeleteMarker` records which of the two page lists the record came from
(the backend guarantees such records carry no `Size` key; where a proof needs
that fact it is an explicit hypothesis). -/
structure Entry where
  key : String
  lastModified : Nat
  versionId : Option String
  size : Option Nat
  isDeleteMarker : Bool
deriving DecidableEq

/-- One page of a paginated `list_object_versions` response: the
`page.get('Versions', [])` and `page.get('DeleteMarkers', [])` lists. -/
structure ListingPage where
  versions : List Entry
  deleteMarkers : List Entry
deriving DecidableEq

/-- One record of a paginated `list_objects_v2` response (`Contents`); such
records always carry a `Size`. -/
structure SObject where
  key : String
  size : Nat
deriving DecidableEq

/-- `s.endswith(t)` / `s.startswith(t)`: character-list forms of the string
suffix and prefix tests (equivalent to `String.endsWith` / `String.startsWith`
on the arguments the source uses, and reducible by the kernel). -/
def strEndsWith (s t : String) : Bool := t.data.isSuffixOf s.data

/-- See `strEndsWith`. -/
def strStartsWith (s t : String) : Bool := t.data.isPrefixOf s.data

/-- Python dict lookup `d[k]` / `k in d` on an insertion-ordered association
list. -/
def dictLookup : List (String × Entry) → String → Option Entry
  | [], _ => none
  | p :: d, k => if p.1 = k then some p.2 else dictLookup d k

/-- Python dict assignment `d[k] = v` on an insertion-ordered association
list: an existing key keeps its position and gets the new value, a new key is
appended at the end. -/
def dictInsert : List (String × Entry) → String → Entry → List (String × Entry)
  | [], k, v => [(k, v)]
  | p :: d, k, v => if p.1 = k then (k, v) :: d else p :: dictInsert d k v

/-- One iteration of the resolution loop of
`s3_handler.list_object_versions_at_timestamp` (s3_handler.py lines 96-99):
`if entry['LastModified'] <= timestamp:` then
`if key not in latest_valid_versions or entry['LastModified'] >
latest_valid_versions[key]['LastModified']: latest_valid_versions[key] = entry`. -/
def resolveStep (t : Nat) (d : List (String × Entry)) (e : Entry) : List (String × Entry) :=
  if e.lastModified ≤ t then
    match dictLookup d e.key with
    | none => dictInsert d e.key e
    | some cur => if cur.lastModified < e.lastModified then dictInsert d e.key e else d
  else d

/-- One iteration of the resolution loop of `download_versioned`
(wasabi_downloader.py lines 220-226); identical to `resolveStep` except for
the leading `if entry['Key'].endswith('/'): continue`. -/
def resolveStepV (t : Nat) (d : List (String × Entry)) (e : Entry) : List (String × Entry) :=
  if strEndsWith e.key "/" then d else resolveStep t d e

/-- The `latest_valid_versions` dict of
`s3_handler.list_object_versions_at_timestamp` after scanning the given
sequence of entries. -/
def latest_valid_versions (entries : List Entry) (t : Nat) : List (String × Entry) :=
  entries.foldl (resolveStep t) []

/-- The `latest_versions_in_time` dict of `download_versioned`
(wasabi_downloader.py) after scanning the given `all_entries` sequence. -/
def latest_versions_in_time (entries : List Entry) (t : Nat) : List (String × Entry) :=
  entries.foldl (resolveStepV t) []

/-- The `all_entries` accumulation of `download_versioned`
(wasabi_downloader.py lines 215-218): each page contributes its `Versions`
then its `DeleteMarkers`; also the page-flattening implicit in the nested
loops of s3_handler.py lines 93-95. -/
def flattenPages (pages : List ListingPage) : List Entry :=
  pages.foldl (fun acc page => acc ++ (page.versions ++ page.deleteMarkers)) []

/-- One iteration of the post-resolution filter of s3_handler.py lines
103-106: `if 'VersionId' in entry and entry.get('Size', 0) > 0:` append the
entry and add its size to the running total. -/
def lovStep (acc : List Entry × Nat) (p : String × Entry) : List Entry × Nat :=
  if p.2.versionId.isSome ∧ p.2.size.getD 0 > 0
  then (acc.1 ++ [p.2], acc.2 + p.2.size.getD 0)
  else acc

/-- The post-resolution filter loop of s3_handler.py lines 101-107. -/
def lovFilter (latest : List (String × Entry)) : List Entry × Nat :=
  latest.foldl lovStep ([], 0)

/-- `s3_handler.list_object_versions_at_timestamp`: the nested page/entry
resolution loop followed by the filter producing `(objects_to_download,
total_size)`. -/
def list_object_versions_at_timestamp (pages : List ListingPage) (timestamp : Nat) :
    List Entry × Nat :=
  lovFilter (pages.foldl
    (fun d page => (page.versions ++ page.deleteMarkers).foldl (resolveStep timestamp) d) [])

/-- One iteration of the `to_download` filter of wasabi_downloader.py lines
229-231: `if 'Size' in entry: to_download[key] = entry['VersionId']`.  The
keys of `latest_versions_in_time` are distinct, so recording the dict as the
sequence of its insertions is exact. -/
def toDownloadStep (acc : List (String × Option String)) (p : String × Entry) :
    List (String × Option String) :=
  if p.2.size.isSome then acc ++ [(p.1, p.2.versionId)] else acc

/-- The `to_download` dict of `download_versioned` (wasabi_downloader.py
lines 228-231), as its insertion sequence `key ↦ version id`. -/
def to_download (entries : List Entry) (t : Nat) : List (String × Option String) :=
  (latest_versions_in_time entries t).foldl toDownloadStep []

/-- One iteration of the accumulation of s3_handler.py lines 81-84:
`if obj['Size'] > 0:` append the object and add its size. -/
def lopStep (acc : List SObject × Nat) (obj : SObject) : List SObject × Nat :=
  if obj.size > 0 then (acc.1 ++ [obj], acc.2 + obj.size) else acc

/-- `s3_handler.list_objects_in_prefix` (lines 72-85): scan the pages of a
`list_objects_v2` listing and return `(objects_to_download, total_size)`. -/
def list_objects_in_prefix (pages : List (List SObject)) : List SObject × Nat :=
  pages.foldl (fun acc page => page.foldl lopStep acc) ([], 0)

/-- `s.rstrip('/')`. -/
def rstripSlash (s : String) : String :=
  ⟨(s.data.reverse.dropWhile (fun c => c == '/')).reverse⟩

/-- `posixpath.dirname`: everything up to the last `/`, with trailing slashes
stripped unless the result is all slashes. -/
def dirname (p : String) : String :=
  let head := (p.data.reverse.dropWhile (fun c => c != '/')).reverse
  if head.isEmpty then ⟨[]⟩
  else if head.all (fun c => c == '/') then ⟨head⟩
  else rstripSlash ⟨head⟩

/-- `posixpath.basename`: everything after the last `/`. -/
def basename (p : String) : String :=
  ⟨(p.data.reverse.takeWhile (fun c => c != '/')).reverse⟩

/-- Helper of `splitSlash`: accumulate the current component (reversed). -/
def splitSlashAux : List Char → List Char → List String
  | [], cur => [⟨cur.reverse⟩]
  | c :: cs, cur => if c = '/' then ⟨cur.reverse⟩ :: splitSlashAux cs [] else splitSlashAux cs (c :: cur)

/-- `s.split('/')`: split on the path separator, keeping empty components
(structural form of `String.splitOn "/"`, reducible by the kernel). -/
def splitSlash (s : String) : List String := splitSlashAux s.data []

/-- `posixpath.join(*components)` for relative components: interleave the
path separator (structural form of `String.intercalate "/"`). -/
def joinSlash : List String → String
  | [] => ""
  | [x] => x
  | x :: xs => x ++ "/" ++ joinSlash xs

/-- Length of the longest common prefix of two component lists
(`posixpath.commonprefix` applied to split paths). -/
def commonPrefixLen : List String → List String → Nat
  | a :: as, b :: bs => if a = b then 1 + commonPrefixLen as bs else 0
  | _, _ => 0

/-- `posixpath.relpath(path, start)` for relative, already-normalized
arguments: split both into non-empty components, drop the common prefix, and
prepend one `..` per remaining start component.  (The source always calls it
on S3 keys and prefixes, which are relative and normalized; the
current-directory prefix `abspath` adds to both sides cancels in the common
prefix.) -/
def relpath (path start : String) : String :=
  let path_list := (splitSlash path).filter (fun x => x ≠ "")
  let start_list := (splitSlash start).filter (fun x => x ≠ "")
  let i := commonPrefixLen start_list path_list
  let rel_list := List.replicate (start_list.length - i) ".." ++ path_list.drop i
  if rel_list.isEmpty then "." else joinSlash rel_list

/-- `posixpath.join` restricted to two arguments, as used by the source. -/
def joinPath (a b : String) : String :=
  if strStartsWith b "/" then b
  else if a = "" ∨ strEndsWith a "/" = true then a ++ b
  else a ++ "/" ++ b

/-- The destination-path computation of `s3_handler.download_objects`
(s3_handler.py lines 135-140): when the source prefix is non-empty and has no
trailing separator the relative base is its parent directory. -/
def map_path_handler (src dd sourceKey : String) : String :=
  let prefix_dir := if src ≠ "" ∧ strEndsWith src "/" = false
                    then dirname (rstripSlash src) else src
  joinPath dd (relpath sourceKey prefix_dir)

/-- The destination-path computation of `download_dir` and
`download_versioned` (wasabi_downloader.py lines 180-182 and 251-252): the
key is taken relative to the source prefix itself. -/
def map_path_root (src dd key : String) : String :=
  joinPath dd (relpath key src)

/-- The batch loop of `s3_handler.download_objects` (lines 132-157): for each
object compute the destination path and attempt the transfer; the per-object
`try/except ClientError` means a failed transfer records a warning
(outcome `false`) and the loop continues.  `transfer` abstracts
`s3_client.download_file` applied to the key, the optional version id and the
destination path. -/
def download_objects_loop (transfer : String → Option String → String → Bool)
    (src dd : String) (objectList : List Entry) : List (String × String × Bool) :=
  objectList.foldl (fun acc obj =>
    let destination_path := map_path_handler src dd obj.key
    acc ++ [(obj.key, destination_path, transfer obj.key obj.versionId destination_path)]) []

/-- The batch loop of `download_versioned` (wasabi_downloader.py lines
246-261): for each `(key, version_id)` of `to_download` compute the local
path, attempt the transfer, and count successes and failures.  The first
component records the outcome of every attempt in order; the last two are the
`success_count` and `fail_count` printed in the final tally. -/
def download_versioned_loop (transfer : String → Option String → String → Bool)
    (src dd : String) (toDl : List (String × Option String)) :
    List (String × Bool) × Nat × Nat :=
  toDl.foldl (fun acc kv =>
    let local_path := map_path_root src dd kv.1
    let success := transfer kv.1 kv.2 local_path
    (acc.1 ++ [(kv.1, success)],
     if success then (acc.2.1 + 1, acc.2.2) else (acc.2.1, acc.2.2 + 1)))
    ([], 0, 0)

/-- `s3_handler.get_object_info` (lines 57-70): `head_object` is abstracted
as `head : key ↦ Option ContentLength`, with `none` for the 404 `ClientError`.
On 404 the function raises `FileNotFoundError` whose message carries the
source key and the bucket name, modelled as the error payload
`(sourceKey, bucketName)`. -/
def get_object_info (head : String → Option Nat) (bucketName sourceKey : String) :
    Except (String × String) (String × Nat) :=
  match head sourceKey with
  | some contentLength => Except.ok (sourceKey, contentLength)
  | none => Except.error (sourceKey, bucketName)

/-- `download_single_file` of the root wasabi_downloader.py (lines 107-152):
the destination defaults to `Download/<basename>`; `head_object` runs before
any byte is written, so a 404 returns `(False, None)` with no file created
(the error printed there carries the source key and the bucket).  A
successful flow returns `(True, destination)`. -/
def download_single_file (head : String → Option Nat) (source : String)
    (destination : Option String) : Bool × Option String :=
  let dest := match destination with
    | none => joinPath "Download" (basename source)
    | some d => d
  match head source with
  | none => (false, none)
  | some _ => (true, some dest)

/-- The `download_file` command branch of the root `main`
(wasabi_downloader.py lines 294-301): on failure print and `sys.exit(1)`.
Result: `(exit code, path of the created file if any)`. -/
def root_main_download_file (head : String → Option Nat) (source : String)
    (destination : Option String) : Nat × Option String :=
  let r := download_single_file head source destination
  if r.1 then (0, r.2) else (1, none)

/-- The `download_file` command branch of the package driver
(wasabi-downloader/wasabi_downloader.py lines 76-89): `get_object_info` runs
before `download_file`, so its `FileNotFoundError` aborts with exit code 1
and no file is created.  Result: `(exit code, path of the created file if
any)`. -/
def pkg_main_download_file (head : String → Option Nat) (bucketName source : String)
    (destination : Option String) : Nat × Option String :=
  match get_object_info head bucketName source with
  | Except.error _ => (1, none)
  | Except.ok _ => (0, some (destination.getD (joinPath "Download" (basename source))))

/-- Microseconds per day. -/
def microsPerDay : Nat := 86400000000

/-- The microsecond-of-day of `23:59:59.999999`, the substitution both flows
apply (`.replace(hour=23, minute=59, second=59, microsecond=999999)`,
wasabi_downloader.py line 204 and the package driver line 102). -/
def endOfDayOffset : Nat := ((23 * 60 + 59) * 60 + 59) * 1000000 + 999999

/-- The target timestamp computed for a `YYYYMMDD` date whose midnight falls
`day` days into the clock: end of that calendar day in UTC. -/
def target_timestamp (day : Nat) : Nat := day * microsPerDay + endOfDayOffset

/-- Reference (non-source) form of the per-key resolution outcome: fold the
eligibility-and-recency comparison of `resolveStep` for one fixed key over
the entry sequence.  `dictLookup` after the resolution loop computes exactly
this (proved below), which reduces reasoning about the dict to reasoning
about one key at a time. -/
def winnerStep (t : Nat) (k : String) (acc : Option Entry) (e : Entry) : Option Entry :=
  if e.lastModified ≤ t then
    if e.key = k then
      match acc with
      | none => some e
      | some c => if c.lastModified < e.lastModified then some e else some c
    else acc
  else acc

/-- Per-key outcome of the `latest_valid_versions` resolution loop. -/
def winner (l : List Entry) (t : Nat) (k : String) : Option Entry :=
  l.foldl (winnerStep t k) none

/-- `winnerStep` with the trailing-separator skip of `resolveStepV`. -/
def winnerStepV (t : Nat) (k : String) (acc : Option Entry) (e : Entry) : Option Entry :=
  if strEndsWith e.key "/" then acc else winnerStep t k acc e

/-- Per-key outcome of the `latest_versions_in_time` resolution loop. -/
def winnerV (l : List Entry) (t : Nat) (k : String) : Option Entry :=
  l.foldl (winnerStepV t k) none

/-- Invariants of the resolution dicts: every pair stores its value's key,
keys are distinct, and every stored value is one of the scanned entries. -/
def GoodState (l : List Entry) (d : List (String × Entry)) : Prop :=
  (∀ p ∈ d, p.1 = p.2.key ∧ p.2 ∈ l) ∧ (d.map Prod.fst).Nodup

/-- Two eligible entries for the same key with the same `last_modified` and
different version ids: the exact-tie case. -/
def tieA : Entry := ⟨"k", 5, some "v1", some 1, false⟩

/-- See `tieA`. -/
def tieB : Entry := ⟨"k", 5, some "v2", some 1, false⟩

/-- An eligible, current (non-delete-marker) version of size zero. -/
def zeroEntry : Entry := ⟨"k", 5, some "v", some 0, false⟩

/-- An eligible record whose key ends in the path separator and whose size is
positive. -/
def slashEntry : Entry := ⟨"d/", 5, some "v", some 3, false⟩

/-- A delete marker that is the latest eligible entry for key `"k"`. -/
def markerEntry : Entry := ⟨"k", 6, some "vm", none, true⟩

/-- An older eligible non-delete version of the same key as `markerEntry`. -/
def olderEntry : Entry := ⟨"k", 5, some "vo", some 4, false⟩

/-- A listing page carrying `olderEntry` among the versions and
`markerEntry` among the delete markers. -/
def markerPage : ListingPage := ⟨[olderEntry], [markerEntry]⟩

/-! ### General lemmas about the resolution dict -/

/-- A predicate preserved by each step of a left fold holds of the result. -/
theorem foldl_preserves {α β : Type} (f : β → α → β) (P : β → Prop)
    (l : List α) (d : β) (hd : P d) (hstep : ∀ b, P b → ∀ a ∈ l, P (f b a)) :
    P (l.foldl f d) := by
  induction l generalizing d with
  | nil => exact hd
  | cons x xs ih =>
    exact ih (f d x) (hstep d hd x (List.mem_cons_self x xs))
      (fun b hb a ha => hstep b hb a (List.mem_cons_of_mem x ha))

/-- Lookup after a dict assignment. -/
theorem dictLookup_dictInsert (d : List (String × Entry)) (k : String) (v : Entry)
    (k2 : String) :
    dictLookup (dictInsert d k v) k2 = if k2 = k then some v else dictLookup d k2 := by
  induction d with
  | nil =>
    by_cases h : k2 = k
    · subst h; simp [dictInsert, dictLookup]
    · simp [dictInsert, dictLookup, h, Ne.symm h]
  | cons p d ih =>
    by_cases hp : p.1 = k
    · by_cases h2 : k2 = k
      · subst h2; simp [dictInsert, dictLookup, hp]
      · have hpk2 : p.1 ≠ k2 := fun he => h2 ((hp.symm.trans he).symm)
        simp [dictInsert, dictLookup, hp, h2, Ne.symm h2, hpk2]
    · by_cases h2 : p.1 = k2
      · have hk2k : k2 ≠ k := fun he => hp (h2.trans he)
        simp [dictInsert, dictLookup, hp, h2, hk2k]
      · simp [dictInsert, dictLookup, hp, h2, ih]

/-- Membership after a dict assignment. -/
theorem mem_dictInsert {d : List (String × Entry)} {k : String} {v : Entry}
    {p : String × Entry} (h : p ∈ dictInsert d k v) : p = (k, v) ∨ p ∈ d := by
  induction d with
  | nil => simpa [dictInsert] using h
  | cons q d ih =>
    by_cases hq : q.1 = k
    · simp only [dictInsert, if_pos hq] at h
      rcases List.mem_cons.mp h with h1 | h1
      · exact Or.inl h1
      · exact Or.inr (List.mem_cons_of_mem q h1)
    · simp only [dictInsert, if_neg hq] at h
      rcases List.mem_cons.mp h with h1 | h1
      · exact Or.inr (h1 ▸ List.mem_cons_self q d)
      · rcases ih h1 with h2 | h2
        · exact Or.inl h2
        · exact Or.inr (List.mem_cons_of_mem q h2)

/-- A key is absent from the dict exactly when no pair carries it. -/
theorem dictLookup_eq_none_iff (d : List (String × Entry)) (k : String) :
    dictLookup d k = none ↔ ∀ p ∈ d, p.1 ≠ k := by
  induction d with
  | nil => simp [dictLookup]
  | cons p d ih =>
    by_cases hp : p.1 = k
    · simp [dictLookup, hp]
    · simp [dictLookup, hp, ih]

/-- Keys after assignment to a present key. -/
theorem keys_dictInsert_present {d : List (String × Entry)} {k : String} {v : Entry}
    (h : dictLookup d k ≠ none) :
    (dictInsert d k v).map Prod.fst = d.map Prod.fst := by
  induction d with
  | nil => exact absurd rfl h
  | cons p d ih =>
    by_cases hp : p.1 = k
    · simp [dictInsert, hp]
    · simp only [dictLookup, if_neg hp] at h
      simp [dictInsert, hp, ih h]

/-- Keys after assignment to an absent key. -/
theorem keys_dictInsert_absent {d : List (String × Entry)} {k : String} {v : Entry}
    (h : dictLookup d k = none) :
    (dictInsert d k v).map Prod.fst = d.map Prod.fst ++ [k] := by
  induction d with
  | nil => simp [dictInsert]
  | cons p d ih =>
    by_cases hp : p.1 = k
    · simp [dictLookup, hp] at h
    · simp only [dictLookup, if_neg hp] at h
      simp [dictInsert, hp, ih h]

/-- In a dict with distinct keys, every stored pair is found by lookup. -/
theorem mem_dictLookup {d : List (String × Entry)} (hnd : (d.map Prod.fst).Nodup)
    {p : String × Entry} (hp : p ∈ d) : dictLookup d p.1 = some p.2 := by
  induction d with
  | nil => cases hp
  | cons q d ih =>
    rcases List.mem_cons.mp hp with h1 | h1
    · simp [dictLookup, h1]
    · have hq : q.1 ≠ p.1 := by
        intro he
        have : q.1 ∈ d.map Prod.fst := he ▸ List.mem_map_of_mem Prod.fst h1
        exact (List.nodup_cons.mp hnd).1 this
      simp [dictLookup, hq, ih (List.nodup_cons.mp hnd).2 h1]

/-- A successful lookup exhibits the stored pair. -/
theorem dictLookup_some_mem {d : List (String × Entry)} {k : String} {e : Entry}
    (h : dictLookup d k = some e) : (k, e) ∈ d := by
  induction d with
  | nil => simp [dictLookup] at h
  | cons p d ih =>
    by_cases hp : p.1 = k
    · simp only [dictLookup, if_pos hp] at h
      have : (k, e) = p := by
        cases p with
        | mk a b => cases h; cases hp; rfl
      exact this ▸ List.mem_cons_self p d
    · simp only [dictLookup, if_neg hp] at h
      exact List.mem_cons_of_mem p (ih h)

/-! ### Per-key transport: the dict built by the resolution loop computes
`winner` at each key -/

/-- One resolution step changes the lookup at `k` exactly as `winnerStep`. -/
theorem dictLookup_resolveStep (t : Nat) (d : List (String × Entry)) (e : Entry)
    (k : String) :
    dictLookup (resolveStep t d e) k = winnerStep t k (dictLookup d k) e := by
  unfold resolveStep winnerStep
  by_cases ht : e.lastModified ≤ t
  · simp only [if_pos ht]
    by_cases hk : e.key = k
    · subst hk
      cases hcur : dictLookup d e.key with
      | none => simp [dictLookup_dictInsert, hcur]
      | some cur =>
        by_cases hlt : cur.lastModified < e.lastModified
        · simp [hlt, dictLookup_dictInsert, hcur]
        · simp [hlt, hcur]
    · have hk2 : k ≠ e.key := fun h => hk h.symm
      cases hcur : dictLookup d e.key with
      | none => simp [dictLookup_dictInsert, hk2, hk]
      | some cur =>
        by_cases hlt : cur.lastModified < e.lastModified
        · simp [hlt, dictLookup_dictInsert, hk2, hk]
        · simp [hlt, hk]
  · simp [ht]

/-- One root resolution step changes the lookup at `k` exactly as
`winnerStepV`. -/
theorem dictLookup_resolveStepV (t : Nat) (d : List (String × Entry)) (e : Entry)
    (k : String) :
    dictLookup (resolveStepV t d e) k = winnerStepV t k (dictLookup d k) e := by
  unfold resolveStepV winnerStepV
  by_cases hs : strEndsWith e.key "/"
  · simp [hs]
  · simp [hs, dictLookup_resolveStep]

/-- Transport of `dictLookup` through the whole resolution loop. -/
theorem dictLookup_foldl_resolveStep (l : List Entry) (t : Nat)
    (d : List (String × Entry)) (k : String) :
    dictLookup (l.foldl (resolveStep t) d) k = l.foldl (winnerStep t k) (dictLookup d k) := by
  induction l generalizing d with
  | nil => rfl
  | cons e es ih => simp only [List.foldl_cons, ih, dictLookup_resolveStep]

/-- Transport of `dictLookup` through the whole root resolution loop. -/
theorem dictLookup_foldl_resolveStepV (l : List Entry) (t : Nat)
    (d : List (String × Entry)) (k : String) :
    dictLookup (l.foldl (resolveStepV t) d) k = l.foldl (winnerStepV t k) (dictLookup d k) := by
  induction l generalizing d with
  | nil => rfl
  | cons e es ih => simp only [List.foldl_cons, ih, dictLookup_resolveStepV]

/-- The lookup of the finished `latest_valid_versions` dict is `winner`. -/
theorem dictLookup_latest_valid_versions (l : List Entry) (t : Nat) (k : String) :
    dictLookup (latest_valid_versions l t) k = winner l t k :=
  dictLookup_foldl_resolveStep l t [] k

/-- The lookup of the finished `latest_versions_in_time` dict is `winnerV`. -/
theorem dictLookup_latest_versions_in_time (l : List Entry) (t : Nat) (k : String) :
    dictLookup (latest_versions_in_time l t) k = winnerV l t k :=
  dictLookup_foldl_resolveStepV l t [] k

/-! ### Structural invariants of the resolution dict -/

/-- One resolution step preserves the dict invariants. -/
theorem goodState_resolveStep {l : List Entry} {t : Nat} {d : List (String × Entry)}
    {e : Entry} (he : e ∈ l) (h : GoodState l d) : GoodState l (resolveStep t d e) := by
  rcases h with ⟨hkv, hnd⟩
  unfold resolveStep
  by_cases ht : e.lastModified ≤ t
  · simp only [if_pos ht]
    cases hcur : dictLookup d e.key with
    | none =>
      refine ⟨fun p hp => ?_, ?_⟩
      · rcases mem_dictInsert hp with h1 | h1
        · subst h1; exact ⟨rfl, he⟩
        · exact hkv p h1
      · rw [keys_dictInsert_absent hcur]
        refine List.Nodup.append hnd (List.nodup_singleton e.key) ?_
        intro a ha hb
        rcases List.mem_singleton.mp hb with rfl
        rcases List.mem_map.mp ha with ⟨p, hp, hpe⟩
        exact (dictLookup_eq_none_iff d e.key).mp hcur p hp hpe
    | some cur =>
      by_cases hlt : cur.lastModified < e.lastModified
      · simp only [if_pos hlt]
        refine ⟨fun p hp => ?_, ?_⟩
        · rcases mem_dictInsert hp with h1 | h1
          · subst h1; exact ⟨rfl, he⟩
          · exact hkv p h1
        · rw [keys_dictInsert_present (hcur ▸ Option.some_ne_none cur)]
          exact hnd
      · simp only [if_neg hlt]
        exact ⟨hkv, hnd⟩
  · simp only [if_neg ht]
    exact ⟨hkv, hnd⟩

/-- One root resolution step preserves the dict invariants. -/
theorem goodState_resolveStepV {l : List Entry} {t : Nat} {d : List (String × Entry)}
    {e : Entry} (he : e ∈ l) (h : GoodState l d) : GoodState l (resolveStepV t d e) := by
  unfold resolveStepV
  by_cases hs : strEndsWith e.key "/"
  · simpa [hs] using h
  · simpa [hs] using goodState_resolveStep he h

/-- The finished `latest_valid_versions` dict satisfies the invariants. -/
theorem goodState_latest_valid_versions (l : List Entry) (t : Nat) :
    GoodState l (latest_valid_versions l t) :=
  foldl_preserves (resolveStep t) (GoodState l) l []
    ⟨fun p hp => absurd hp (List.not_mem_nil p), List.nodup_nil⟩
    (fun _ hd _ he => goodState_resolveStep he hd)

/-- The finished `latest_versions_in_time` dict satisfies the invariants. -/
theorem goodState_latest_versions_in_time (l : List Entry) (t : Nat) :
    GoodState l (latest_versions_in_time l t) :=
  foldl_preserves (resolveStepV t) (GoodState l) l []
    ⟨fun p hp => absurd hp (List.not_mem_nil p), List.nodup_nil⟩
    (fun _ hd _ he => goodState_resolveStepV he hd)

/-! ### Properties of the per-key winner fold -/

/-- A winner step either keeps the accumulator or installs the new entry,
the latter only for an eligible entry of the right key. -/
theorem winnerStep_cases (t : Nat) (k : String) (acc : Option Entry) (e : Entry) :
    winnerStep t k acc e = acc ∨
      (winnerStep t k acc e = some e ∧ e.key = k ∧ e.lastModified ≤ t) := by
  unfold winnerStep
  by_cases ht : e.lastModified ≤ t
  · by_cases hk : e.key = k
    · cases acc with
      | none => exact Or.inr ⟨by simp [ht, hk], hk, ht⟩
      | some c =>
        by_cases hlt : c.lastModified < e.lastModified
        · exact Or.inr ⟨by simp [ht, hk, hlt], hk, ht⟩
        · exact Or.inl (by simp [ht, hk, hlt])
    · exact Or.inl (by simp [ht, hk])
  · exact Or.inl (by simp [ht])

/-- A winner step never decreases the recorded modification time. -/
theorem winnerStep_mono (t : Nat) (k : String) {acc : Option Entry} {c : Entry}
    (h : acc = some c) (e : Entry) :
    ∃ c2, winnerStep t k acc e = some c2 ∧ c.lastModified ≤ c2.lastModified := by
  subst h
  unfold winnerStep
  by_cases ht : e.lastModified ≤ t
  · by_cases hk : e.key = k
    · by_cases hlt : c.lastModified < e.lastModified
      · exact ⟨e, by simp [ht, hk, hlt], Nat.le_of_lt hlt⟩
      · exact ⟨c, by simp [ht, hk, hlt], Nat.le_refl _⟩
    · exact ⟨c, by simp [ht, hk], Nat.le_refl _⟩
  · exact ⟨c, by simp [ht], Nat.le_refl _⟩

/-- Feeding an eligible entry of the right key leaves a recorded winner at
least as recent as that entry. -/
theorem winnerStep_self (t : Nat) (k : String) (acc : Option Entry) {e : Entry}
    (hk : e.key = k) (ht : e.lastModified ≤ t) :
    ∃ c2, winnerStep t k acc e = some c2 ∧ e.lastModified ≤ c2.lastModified := by
  unfold winnerStep
  cases acc with
  | none => exact ⟨e, by simp [ht, hk], Nat.le_refl _⟩
  | some c =>
    by_cases hlt : c.lastModified < e.lastModified
    · exact ⟨e, by simp [ht, hk, hlt], Nat.le_refl _⟩
    · exact ⟨c, by simp [ht, hk, hlt], Nat.le_of_not_lt hlt⟩

/-- Full characterization of the winner fold from an arbitrary accumulator:
the result is the accumulator or an eligible scanned entry of the right key;
it never loses recency against the accumulator; and it is at least as recent
as every eligible scanned entry of the right key. -/
theorem winner_fold_spec (t : Nat) (k : String) (l : List Entry) (acc : Option Entry) :
    (l.foldl (winnerStep t k) acc = acc ∨
      (∃ e, l.foldl (winnerStep t k) acc = some e ∧ e ∈ l ∧ e.key = k ∧ e.lastModified ≤ t)) ∧
    (∀ c, acc = some c →
      ∃ e, l.foldl (winnerStep t k) acc = some e ∧ c.lastModified ≤ e.lastModified) ∧
    (∀ x ∈ l, x.key = k → x.lastModified ≤ t →
      ∃ e, l.foldl (winnerStep t k) acc = some e ∧ x.lastModified ≤ e.lastModified) := by
  induction l generalizing acc with
  | nil =>
    refine ⟨Or.inl rfl, fun c hc => ⟨c, hc, Nat.le_refl _⟩, fun x hx => absurd hx (List.not_mem_nil x)⟩
  | cons y ys ih =>
    rcases ih (winnerStep t k acc y) with ⟨ih1, ih2, ih3⟩
    simp only [List.foldl_cons]
    refine ⟨?_, ?_, ?_⟩
    · rcases winnerStep_cases t k acc y with hy | ⟨hy, hyk, hyt⟩
      · rcases ih1 with h1 | ⟨e, h1, he, hek, het⟩
        · exact Or.inl (h1.trans hy)
        · exact Or.inr ⟨e, h1, List.mem_cons_of_mem y he, hek, het⟩
      · rcases ih1 with h1 | ⟨e, h1, he, hek, het⟩
        · exact Or.inr ⟨y, h1.trans hy, List.mem_cons_self y ys, hyk, hyt⟩
        · exact Or.inr ⟨e, h1, List.mem_cons_of_mem y he, hek, het⟩
    · intro c hc
      rcases winnerStep_mono t k hc y with ⟨c2, hc2, hle⟩
      rcases ih2 c2 hc2 with ⟨e, he, hle2⟩
      exact ⟨e, he, Nat.le_trans hle hle2⟩
    · intro x hx hxk hxt
      rcases List.mem_cons.mp hx with rfl | hx2
      · rcases winnerStep_self t k acc hxk hxt with ⟨c2, hc2, hle⟩
        rcases ih2 c2 hc2 with ⟨e, he, hle2⟩
        exact ⟨e, he, Nat.le_trans hle hle2⟩
      · exact ih3 x hx2 hxk hxt

/-- A produced winner is an eligible scanned entry of its key, maximal in
`last_modified` among all eligible scanned entries of that key. -/
theorem winner_max {l : List Entry} {t : Nat} {k : String} {e : Entry}
    (h : winner l t k = some e) :
    e ∈ l ∧ e.key = k ∧ e.lastModified ≤ t ∧
      ∀ x ∈ l, x.key = k → x.lastModified ≤ t → x.lastModified ≤ e.lastModified := by
  rcases winner_fold_spec t k l none with ⟨h1, _, h3⟩
  rcases h1 with h1 | ⟨e2, h1, he2, hek, het⟩
  · rw [winner] at h; rw [h1] at h; cases h
  · rw [winner] at h; rw [h1] at h
    cases h
    refine ⟨he2, hek, het, fun x hx hxk hxt => ?_⟩
    rcases h3 x hx hxk hxt with ⟨e3, he3, hle⟩
    rw [h1] at he3
    cases he3
    exact hle

/-- If no winner is produced for a key, no scanned entry of that key was
eligible. -/
theorem winner_none {l : List Entry} {t : Nat} {k : String}
    (h : winner l t k = none) :
    ∀ x ∈ l, x.key = k → x.lastModified ≤ t → False := by
  intro x hx hxk hxt
  rcases (winner_fold_spec t k l none).2.2 x hx hxk hxt with ⟨e, he, _⟩
  rw [winner] at h
  rw [h] at he
  cases he

/-- Permutation invariance of the per-key winner when no two distinct
eligible entries of one key share a `last_modified` value. -/
theorem winner_perm {l l2 : List Entry} {t : Nat} (k : String)
    (hperm : l.Perm l2)
    (hnotie : ∀ e ∈ l, ∀ e2 ∈ l, e.lastModified ≤ t → e.key = e2.key →
      e.lastModified = e2.lastModified → e = e2) :
    winner l t k = winner l2 t k := by
  cases h1 : winner l t k with
  | none =>
    cases h2 : winner l2 t k with
    | none => rfl
    | some e2 =>
      rcases winner_max h2 with ⟨he2, hek, het, _⟩
      exact absurd (winner_none h1 e2 (hperm.symm.subset he2) hek het) id
  | some e =>
    cases h2 : winner l2 t k with
    | none =>
      rcases winner_max h1 with ⟨he, hek, het, _⟩
      exact absurd (winner_none h2 e (hperm.subset he) hek het) id
    | some e2 =>
      rcases winner_max h1 with ⟨he, hek, het, hmax⟩
      rcases winner_max h2 with ⟨he2, he2k, he2t, hmax2⟩
      have he2l : e2 ∈ l := hperm.symm.subset he2
      have hle1 : e2.lastModified ≤ e.lastModified := hmax e2 he2l he2k he2t
      have hle2 : e.lastModified ≤ e2.lastModified := hmax2 e (hperm.subset he) hek het
      have heq : e.lastModified = e2.lastModified := Nat.le_antisymm hle2 hle1
      have : e = e2 := hnotie e he e2 he2l het (hek.trans he2k.symm) heq
      rw [this]

/-! ### The post-resolution filters -/

/-- Membership in the output list of the s3_handler filter loop. -/
theorem mem_lovFilter_fold (latest : List (String × Entry)) (acc : List Entry × Nat)
    (x : Entry) :
    x ∈ (latest.foldl lovStep acc).1 ↔
      x ∈ acc.1 ∨ ∃ p ∈ latest, p.2 = x ∧ p.2.versionId.isSome ∧ p.2.size.getD 0 > 0 := by
  induction latest generalizing acc with
  | nil => simp
  | cons q qs ih =>
    simp only [List.foldl_cons, ih]
    by_cases hq : q.2.versionId.isSome ∧ q.2.size.getD 0 > 0
    · simp only [lovStep, if_pos hq, List.mem_append, List.mem_singleton]
      constructor
      · rintro ((h | rfl) | ⟨p, hp, hpx, hc⟩)
        · exact Or.inl h
        · exact Or.inr ⟨q, List.mem_cons_self q qs, rfl, hq⟩
        · exact Or.inr ⟨p, List.mem_cons_of_mem q hp, hpx, hc⟩
      · rintro (h | ⟨p, hp, hpx, hc⟩)
        · exact Or.inl (Or.inl h)
        · rcases List.mem_cons.mp hp with rfl | hp2
          · exact Or.inl (Or.inr hpx.symm)
          · exact Or.inr ⟨p, hp2, hpx, hc⟩
    · simp only [lovStep, if_neg hq]
      constructor
      · rintro (h | ⟨p, hp, hpx, hc⟩)
        · exact Or.inl h
        · exact Or.inr ⟨p, List.mem_cons_of_mem q hp, hpx, hc⟩
      · rintro (h | ⟨p, hp, hpx, hc⟩)
        · exact Or.inl h
        · rcases List.mem_cons.mp hp with rfl | hp2
          · exact absurd hc hq
          · exact Or.inr ⟨p, hp2, hpx, hc⟩

/-- Membership in the `to_download` filter loop of the root flow. -/
theorem mem_toDownload_fold (latest : List (String × Entry))
    (acc : List (String × Option String)) (q : String × Option String) :
    q ∈ latest.foldl toDownloadStep acc ↔
      q ∈ acc ∨ ∃ p ∈ latest, p.2.size.isSome ∧ q = (p.1, p.2.versionId) := by
  induction latest generalizing acc with
  | nil => simp
  | cons r rs ih =>
    simp only [List.foldl_cons, ih]
    by_cases hr : r.2.size.isSome
    · simp only [toDownloadStep, if_pos hr, List.mem_append, List.mem_singleton]
      constructor
      · rintro ((h | rfl) | ⟨p, hp, hps, hq⟩)
        · exact Or.inl h
        · exact Or.inr ⟨r, List.mem_cons_self r rs, hr, rfl⟩
        · exact Or.inr ⟨p, List.mem_cons_of_mem r hp, hps, hq⟩
      · rintro (h | ⟨p, hp, hps, hq⟩)
        · exact Or.inl (Or.inl h)
        · rcases List.mem_cons.mp hp with rfl | hp2
          · exact Or.inl (Or.inr hq)
          · exact Or.inr ⟨p, hp2, hps, hq⟩
    · simp only [toDownloadStep, if_neg hr]
      constructor
      · rintro (h | ⟨p, hp, hps, hq⟩)
        · exact Or.inl h
        · exact Or.inr ⟨p, List.mem_cons_of_mem r hp, hps, hq⟩
      · rintro (h | ⟨p, hp, hps, hq⟩)
        · exact Or.inl h
        · rcases List.mem_cons.mp hp with rfl | hp2
          · exact absurd hps hr
          · exact Or.inr ⟨p, hp2, hps, hq⟩

/-- Membership in the output of the `list_objects_v2` accumulation step. -/
theorem mem_lop_fold (page : List SObject) (acc : List SObject × Nat) (x : SObject) :
    x ∈ (page.foldl lopStep acc).1 ↔ x ∈ acc.1 ∨ (x ∈ page ∧ x.size > 0) := by
  induction page generalizing acc with
  | nil => simp
  | cons q qs ih =>
    simp only [List.foldl_cons, ih]
    by_cases hq : q.size > 0
    · simp only [lopStep, if_pos hq, List.mem_append, List.mem_singleton]
      constructor
      · rintro ((h | rfl) | ⟨hx, hs⟩)
        · exact Or.inl h
        · exact Or.inr ⟨List.mem_cons_self _ _, hq⟩
        · exact Or.inr ⟨List.mem_cons_of_mem _ hx, hs⟩
      · rintro (h | ⟨hx, hs⟩)
        · exact Or.inl (Or.inl h)
        · rcases List.mem_cons.mp hx with rfl | hx2
          · exact Or.inl (Or.inr rfl)
          · exact Or.inr ⟨hx2, hs⟩
    · simp only [lopStep, if_neg hq]
      constructor
      · rintro (h | ⟨hx, hs⟩)
        · exact Or.inl h
        · exact Or.inr ⟨List.mem_cons_of_mem q hx, hs⟩
      · rintro (h | ⟨hx, hs⟩)
        · exact Or.inl h
        · rcases List.mem_cons.mp hx with rfl | hx2
          · exact absurd hs hq
          · exact Or.inr ⟨hx2, hs⟩

/-- The s3_handler filter keeps the running total equal to the sum of the
sizes of the retained entries. -/
theorem lovFilter_total (latest : List (String × Entry)) :
    (lovFilter latest).2 = ((lovFilter latest).1.map (fun e => e.size.getD 0)).sum := by
  have h := foldl_preserves lovStep
    (fun acc => acc.2 = (acc.1.map (fun e => e.size.getD 0)).sum) latest ([], 0) (by simp)
    (fun acc hacc p _ => by
      unfold lovStep
      by_cases hc : p.2.versionId.isSome ∧ p.2.size.getD 0 > 0
      · simp [hc, hacc]
      · simp [hc, hacc])
  exact h

/-- The `list_objects_v2` accumulation keeps the running total equal to the
sum of the sizes of the retained objects. -/
theorem lop_total (pages : List (List SObject)) :
    ( list_objects_in_prefix pages).2 =
      (( list_objects_in_prefix pages).1.map (fun o => o.size)).sum := by
  have h := foldl_preserves (fun acc page => page.foldl lopStep acc)
    (fun acc : List SObject × Nat => acc.2 = (acc.1.map (fun o => o.size)).sum)
    pages ([], 0) (by simp)
    (fun acc hacc page _ => by
      exact foldl_preserves lopStep
        (fun acc2 : List SObject × Nat => acc2.2 = (acc2.1.map (fun o => o.size)).sum)
        page acc hacc
        (fun b hb obj _ => by
          unfold lopStep
          by_cases hc : obj.size > 0
          · simp [hc, hb]
          · simp [hc, hb]))
  exact h

/-! ### Page flattening -/

/-- Accumulator shift for the page-flattening loop. -/
theorem flatten_fold_shift (pages : List ListingPage) (a : List Entry) :
    pages.foldl (fun acc page => acc ++ (page.versions ++ page.deleteMarkers)) a =
      a ++ pages.foldl (fun acc page => acc ++ (page.versions ++ page.deleteMarkers)) [] := by
  induction pages generalizing a with
  | nil => simp
  | cons p ps ih =>
    rw [List.foldl_cons, List.foldl_cons, ih (a ++ (p.versions ++ p.deleteMarkers)),
        ih ([] ++ (p.versions ++ p.deleteMarkers))]
    simp [List.append_assoc]

/-- The flattened entries of a page-cons. -/
theorem flattenPages_cons (p : ListingPage) (ps : List ListingPage) :
    flattenPages (p :: ps) = (p.versions ++ p.deleteMarkers) ++ flattenPages ps := by
  unfold flattenPages
  rw [List.foldl_cons, flatten_fold_shift]
  simp

/-- The nested per-page resolution loop of s3_handler equals the root flow's
single loop over the flattened entry sequence. -/
theorem nested_resolve_eq_flatten (t : Nat) (pages : List ListingPage)
    (d : List (String × Entry)) :
    pages.foldl
        (fun d0 page => (page.versions ++ page.deleteMarkers).foldl (resolveStep t) d0) d =
      (flattenPages pages).foldl (resolveStep t) d := by
  induction pages generalizing d with
  | nil => rfl
  | cons p ps ih =>
    rw [List.foldl_cons, ih, flattenPages_cons]
    simp [List.foldl_append]

/-- A pair of the dict after a resolution step is either the new entry keyed
by its own key or was already present. -/
theorem mem_resolveStep {t : Nat} {d : List (String × Entry)} {e : Entry}
    {p : String × Entry} (h : p ∈ resolveStep t d e) : p = (e.key, e) ∨ p ∈ d := by
  unfold resolveStep at h
  split at h
  · split at h
    · exact mem_dictInsert h
    · split at h
      · exact mem_dictInsert h
      · exact Or.inr h
  · exact Or.inr h

/-- The root resolution loop never stores a key that ends in the path
separator. -/
theorem no_slash_key_latest_versions_in_time (l : List Entry) (t : Nat) :
    ∀ p ∈ latest_versions_in_time l t, strEndsWith p.1 "/" = false := by
  refine foldl_preserves (resolveStepV t)
    (fun d => ∀ p ∈ d, strEndsWith p.1 "/" = false) l [] (fun p hp => absurd hp (List.not_mem_nil p))
    (fun d hd e _ => ?_)
  intro p hp
  unfold resolveStepV at hp
  by_cases hs : strEndsWith e.key "/"
  · rw [if_pos hs] at hp
    exact hd p hp
  · rw [if_neg hs] at hp
    rcases mem_resolveStep hp with rfl | hp2
    · exact Bool.not_eq_true _ ▸ eq_false_of_ne_true hs
    · exact hd p hp2

/-- At an exact `last_modified` tie with the already-retained entry, a
resolution step discards the incoming entry and leaves the dict unchanged
(the `>` comparison of the source is false on equality). -/
theorem resolveStep_tie {t : Nat} {d : List (String × Entry)} {e c : Entry}
    (hc : dictLookup d e.key = some c) (hlm : c.lastModified = e.lastModified) :
    resolveStep t d e = d := by
  unfold resolveStep
  by_cases ht : e.lastModified ≤ t
  · have hnl : ¬ c.lastModified < e.lastModified := by
      rw [hlm]; exact Nat.lt_irrefl _
    rw [if_pos ht, hc]
    simp [hnl]
  · rw [if_neg ht]

/-- At an exact tie the root resolution step likewise leaves the dict
unchanged. -/
theorem resolveStepV_tie {t : Nat} {d : List (String × Entry)} {e c : Entry}
    (hc : dictLookup d e.key = some c) (hlm : c.lastModified = e.lastModified) :
    resolveStepV t d e = d := by
  unfold resolveStepV
  by_cases hs : strEndsWith e.key "/"
  · rw [if_pos hs]
  · rw [if_neg hs, resolveStep_tie hc hlm]

/-! ### Claim theorems -/

/-- C1 (counterexample): the Point-in-Time Resolver is not order independent
as claimed.  `tieA` and `tieB` are two eligible entries for the same key with
identical `last_modified` and different version ids; swapping them (a
permutation of the input sequence) changes the winning entry retained for the
key, so the final key-to-entry mapping differs. -/
theorem resolver_not_order_independent_at_tie :
    [tieA, tieB].Perm [tieB, tieA] ∧
      dictLookup (latest_valid_versions [tieA, tieB] 10) "k" ≠
        dictLookup (latest_valid_versions [tieB, tieA] 10) "k" := by
  constructor
  · exact List.Perm.swap tieB tieA []
  · decide

/-- C1 (amended): unconditionally — for every input sequence, tied entries
included — each retained entry of the resolver's final mapping is eligible
(`last_modified` at most the target) and carries the maximum `last_modified`
over all eligible entries of its key; and whenever no two distinct entries of
the input share both a key and a `last_modified` value among the eligible
entries, the final mapping is furthermore invariant under any permutation of
the input sequence. -/
theorem resolver_order_independent_no_ties (l : List Entry) (t : Nat) :
    (∀ k e, dictLookup (latest_valid_versions l t) k = some e →
      e ∈ l ∧ e.key = k ∧ e.lastModified ≤ t ∧
        ∀ x ∈ l, x.key = k → x.lastModified ≤ t →
          x.lastModified ≤ e.lastModified) ∧
    (∀ l2, l.Perm l2 →
      (∀ e ∈ l, ∀ e2 ∈ l, e.lastModified ≤ t → e.key = e2.key →
        e.lastModified = e2.lastModified → e = e2) →
      ∀ k, dictLookup (latest_valid_versions l t) k =
        dictLookup (latest_valid_versions l2 t) k) := by
  constructor
  · intro k e h
    rw [dictLookup_latest_valid_versions] at h
    exact winner_max h
  · intro l2 hperm hnotie k
    rw [dictLookup_latest_valid_versions, dictLookup_latest_valid_versions]
    exact winner_perm k hperm hnotie

/-- Witness for C1 (amended): the unconditional invariant applied to the
TIED input `[tieA, tieB]` (the retained `tieA` is an eligible member of the
input), and the permutation part applied to a concrete tie-free input and its
swap. -/
theorem resolver_order_independent_no_ties_witness :
    (tieA ∈ [tieA, tieB] ∧ tieA.lastModified ≤ 10) ∧
    dictLookup (latest_valid_versions
      [(⟨"a", 1, some "x", some 1, false⟩ : Entry), ⟨"a", 2, some "y", some 1, false⟩] 10) "a" =
      dictLookup (latest_valid_versions
        [(⟨"a", 2, some "y", some 1, false⟩ : Entry), ⟨"a", 1, some "x", some 1, false⟩] 10) "a" :=
  ⟨⟨((resolver_order_independent_no_ties [tieA, tieB] 10).1 "k" tieA (by decide)).1,
    ((resolver_order_independent_no_ties [tieA, tieB] 10).1 "k" tieA (by decide)).2.2.1⟩,
   (resolver_order_independent_no_ties
      [⟨"a", 1, some "x", some 1, false⟩, ⟨"a", 2, some "y", some 1, false⟩] 10).2
      [⟨"a", 2, some "y", some 1, false⟩, ⟨"a", 1, some "x", some 1, false⟩]
      (List.Perm.swap _ _ []) (by decide) "a"⟩

/-- C2 (counterexample): with two eligible entries for the same key sharing
an identical `last_modified`, the resolver retains the one encountered
FIRST, not the later one the claim names: `tieA` (first) stays in the final
mapping although `tieB` (later, distinct) was scanned afterwards. -/
theorem tie_retains_first_encountered :
    dictLookup (latest_valid_versions [tieA, tieB] 10) "k" = some tieA ∧ tieA ≠ tieB := by
  decide

/-- C2 (amended): at an exact `last_modified` tie with the entry already
retained for the key, both resolution loops discard the incoming (later)
entry and keep the earlier one — the source's strict `>` comparison is false
on equality, so the earlier entry wins the tie in `s3_handler` and in the
root flow alike. -/
theorem tie_break_keeps_earlier {t : Nat} {d : List (String × Entry)} {e c : Entry}
    (hc : dictLookup d e.key = some c) (hlm : c.lastModified = e.lastModified) :
    resolveStep t d e = d ∧ resolveStepV t d e = d :=
  ⟨resolveStep_tie hc hlm, resolveStepV_tie hc hlm⟩

/-- Witness for C2 (amended): a dict retaining `tieA` is unchanged when the
tied `tieB` arrives. -/
theorem tie_break_keeps_earlier_witness :
    resolveStep 10 [("k", tieA)] tieB = [("k", tieA)] :=
  (@tie_break_keeps_earlier 10 [("k", tieA)] tieB tieA (by decide) (by decide)).1

/-- C3: an entry whose `last_modified` equals the target timestamp is
retained as a candidate by the resolution loop, while one a single
microsecond later is not scanned into the state at all; and the end-of-day
target for a calendar day covers exactly that day — every instant of the day
is at most the target, and every instant strictly past the target lies in
the next day or later. -/
theorem timestamp_boundary_end_of_day (day : Nat) (e1 e2 : Entry)
    (h1 : e1.lastModified = target_timestamp day)
    (h2 : e2.lastModified = target_timestamp day + 1) :
    latest_valid_versions [e1] (target_timestamp day) = [(e1.key, e1)] ∧
    latest_valid_versions [e2] (target_timestamp day) = [] ∧
    (∀ u, day * microsPerDay ≤ u → u < (day + 1) * microsPerDay →
      u ≤ target_timestamp day) ∧
    (∀ u, target_timestamp day < u → (day + 1) * microsPerDay ≤ u) := by
  refine ⟨?_, ?_, ?_, ?_⟩
  · simp [latest_valid_versions, resolveStep, dictLookup, dictInsert, h1]
  · have hgt : ¬ e2.lastModified ≤ target_timestamp day := by
      rw [h2]; omega
    simp [latest_valid_versions, resolveStep, hgt]
  · intro u hu1 hu2
    simp only [target_timestamp, microsPerDay, endOfDayOffset] at *
    omega
  · intro u hu
    simp only [target_timestamp, microsPerDay, endOfDayOffset] at *
    omega

/-- Witness for C3: at `day = 0`, the entry modified at
`23:59:59.999999` is retained and the one at `00:00:00.000000` of the next
day is not. -/
theorem timestamp_boundary_end_of_day_witness :
    latest_valid_versions [(⟨"k", 86399999999, some "v", some 1, false⟩ : Entry)]
        (target_timestamp 0) =
      [("k", ⟨"k", 86399999999, some "v", some 1, false⟩)] :=
  (timestamp_boundary_end_of_day 0 ⟨"k", 86399999999, some "v", some 1, false⟩
    ⟨"k", 86400000000, some "v", some 1, false⟩ (by decide) (by decide)).1

/-- C4: a key whose winning (latest eligible) entry is a delete marker is
absent from the final download set of both flows, regardless of any older
eligible non-delete version of the key in the input.  The well-formedness
hypothesis states the backend guarantee the filters rely on: a delete-marker
record carries no `Size` field.  The first conjunct covers
`s3_handler.list_object_versions_at_timestamp`, the second the root flow's
`to_download`. -/
theorem delete_marker_winner_excluded (pages : List ListingPage) (t : Nat) (k : String)
    (hwf : ∀ x ∈ flattenPages pages, x.isDeleteMarker = true → x.size = none) :
    (∀ e, dictLookup (latest_valid_versions (flattenPages pages) t) k = some e →
      e.isDeleteMarker = true →
      ((list_object_versions_at_timestamp pages t).1.all fun x => x.key != k) = true) ∧
    (∀ e, dictLookup (latest_versions_in_time (flattenPages pages) t) k = some e →
      e.isDeleteMarker = true →
      ((to_download (flattenPages pages) t).all fun p => p.1 != k) = true) := by
  constructor
  · intro e hwin hdm
    simp only [List.all_eq_true, bne_iff_ne]
    intro x hx hxk
    unfold list_object_versions_at_timestamp at hx
    rw [nested_resolve_eq_flatten] at hx
    rcases (mem_lovFilter_fold _ _ x).mp hx with hx0 | ⟨p, hp, hpx, hvid, hsz⟩
    · cases hx0
    · cases hpx
      rcases goodState_latest_valid_versions (flattenPages pages) t with ⟨hkv, hnd⟩
      have hk1 := (hkv p hp).1
      have hmem := (hkv p hp).2
      have hlk : dictLookup (latest_valid_versions (flattenPages pages) t) p.1 = some p.2 :=
        mem_dictLookup hnd hp
      rw [hk1, hxk] at hlk
      have hep : e = p.2 := Option.some.inj (hwin.symm.trans hlk)
      have hnone : p.2.size = none := hwf p.2 hmem (hep ▸ hdm)
      rw [hnone] at hsz
      exact absurd hsz (by decide)
  · intro e hwin hdm
    simp only [List.all_eq_true, bne_iff_ne]
    intro q hq hqk
    rcases (mem_toDownload_fold _ _ _).mp hq with hq0 | ⟨p, hp, hps, hqe⟩
    · cases hq0
    · rcases goodState_latest_versions_in_time (flattenPages pages) t with ⟨hkv, hnd⟩
      have hmem := (hkv p hp).2
      have hlk : dictLookup (latest_versions_in_time (flattenPages pages) t) p.1 = some p.2 :=
        mem_dictLookup hnd hp
      have hpk : p.1 = k := by rw [hqe] at hqk; exact hqk
      rw [hpk] at hlk
      have hep : e = p.2 := Option.some.inj (hwin.symm.trans hlk)
      have hnone : p.2.size = none := hwf p.2 hmem (hep ▸ hdm)
      rw [hnone] at hps
      exact absurd hps (by decide)

/-- Witness for C4: a page where the delete marker `markerEntry` beats the
older version `olderEntry` for key `"k"`; the resolved download set of the
handler flow contains no entry for `"k"`. -/
theorem delete_marker_winner_excluded_witness :
    ((list_object_versions_at_timestamp [markerPage] 10).1.all fun x => x.key != "k") = true :=
  (delete_marker_winner_excluded [markerPage] 10 "k" (by decide)).1 markerEntry
    (by decide) (by decide)

/-- C5 (counterexample): the claim fails on the root flow.  `zeroEntry` is an
eligible winning entry of size `0` and it IS retained in `to_download` of
`download_versioned` (wasabi_downloader.py lines 228-231 keep any entry that
has a `Size` field, with no `> 0` comparison). -/
theorem zero_size_retained_in_root_flow :
    zeroEntry.size = some 0 ∧ to_download [zeroEntry] 10 = [("k", some "v")] := by
  decide

/-- C5 (amended): the two flows filter differently.  In
`s3_handler.list_object_versions_at_timestamp` every returned object has a
version id and a size strictly greater than zero, so zero-size winners are
excluded there; in the root flow's `to_download` any winning entry whose size
field is present — zero included — is retained. -/
theorem zero_size_exclusion_split (pages : List ListingPage) (l : List Entry) (t : Nat) :
    (∀ x ∈ (list_object_versions_at_timestamp pages t).1,
      x.versionId.isSome = true ∧ x.size.getD 0 > 0) ∧
    (∀ k e, dictLookup (latest_versions_in_time l t) k = some e →
      e.size.isSome = true → (k, e.versionId) ∈ to_download l t) := by
  constructor
  · intro x hx
    unfold list_object_versions_at_timestamp at hx
    rcases (mem_lovFilter_fold _ _ x).mp hx with hx0 | ⟨p, hp, hpx, hvid, hsz⟩
    · cases hx0
    · cases hpx
      exact ⟨hvid, hsz⟩
  · intro k e hlk hsz
    have hp : (k, e) ∈ latest_versions_in_time l t := dictLookup_some_mem hlk
    exact (mem_toDownload_fold _ _ _).mpr (Or.inr ⟨(k, e), hp, hsz, rfl⟩)

/-- Witness for C5 (amended): the zero-size winner `zeroEntry` appears in the
root flow's download set. -/
theorem zero_size_exclusion_split_witness :
    ("k", some "v") ∈ to_download [zeroEntry] 10 :=
  (zero_size_exclusion_split [] [zeroEntry] 10).2 "k" zeroEntry (by decide) (by decide)

/-- C6 (counterexample): the path mapper of the root flow
(`download_dir` / `download_versioned`) takes the key relative to the source
prefix itself, so for prefix `"a/b"` without a trailing separator it yields
`"Download/c/d.txt"`, not the claimed `"Download/b/c/d.txt"` — the prefix's
own last segment is NOT preserved on that code path. -/
theorem root_mapper_drops_last_segment :
    map_path_root "a/b" "Download" "a/b/c/d.txt" = "Download/c/d.txt" ∧
      map_path_root "a/b" "Download" "a/b/c/d.txt" ≠ "Download/b/c/d.txt" := by
  decide

/-- C6 (amended): the three claimed cases hold for the path mapper of
`s3_handler.download_objects` (which rebases an un-slashed prefix on its
parent directory); the root flow's mapper agrees on the first two cases but
maps the third to `"Download/c/d.txt"`. -/
theorem path_mapping_cases :
    map_path_handler "a/b/" "Download" "a/b/c/d.txt" = "Download/c/d.txt" ∧
    map_path_handler "" "Download" "a/b/c/d.txt" = "Download/a/b/c/d.txt" ∧
    map_path_handler "a/b" "Download" "a/b/c/d.txt" = "Download/b/c/d.txt" ∧
    map_path_root "a/b/" "Download" "a/b/c/d.txt" = "Download/c/d.txt" ∧
    map_path_root "" "Download" "a/b/c/d.txt" = "Download/a/b/c/d.txt" := by
  decide

/-- C7 (counterexample): s3_handler applies no trailing-separator drop.
`slashEntry` has a key ending in `/` and a positive size; it is fed into the
resolution state of `list_object_versions_at_timestamp` and even appears in
its final download list. -/
theorem slash_key_reaches_download_set :
    strEndsWith slashEntry.key "/" = true ∧
      (list_object_versions_at_timestamp [⟨[slashEntry], []⟩] 10).1 = [slashEntry] := by
  decide

/-- C7 (amended): only the root flow drops records whose key ends in the
path separator: its resolution state never holds such a key and its download
set never lists one.  `list_objects_in_prefix` filters by positive size, not
by trailing separator. -/
theorem slash_and_size_filters_split (l : List Entry) (t : Nat)
    (spages : List (List SObject)) :
    (∀ k, strEndsWith k "/" = true → dictLookup (latest_versions_in_time l t) k = none) ∧
    (∀ p ∈ to_download l t, strEndsWith p.1 "/" = false) ∧
    (∀ x ∈ ( list_objects_in_prefix spages).1, x.size > 0) := by
  refine ⟨?_, ?_, ?_⟩
  · intro k hk
    rw [dictLookup_eq_none_iff]
    intro p hp he
    have hns := no_slash_key_latest_versions_in_time l t p hp
    rw [he, hk] at hns
    exact Bool.noConfusion hns
  · intro p hp
    rcases (mem_toDownload_fold _ _ _).mp hp with h0 | ⟨q, hq, hqs, hqe⟩
    · cases h0
    · have hns := no_slash_key_latest_versions_in_time l t q hq
      rw [hqe]
      exact hns
  · intro x hx
    have h := foldl_preserves (fun acc page => page.foldl lopStep acc)
      (fun acc : List SObject × Nat => ∀ y ∈ acc.1, y.size > 0)
      spages ([], 0) (fun y hy => absurd hy (List.not_mem_nil y))
      (fun acc hacc page _ => by
        intro y hy
        rcases (mem_lop_fold page acc y).mp hy with h1 | ⟨_, h2⟩
        · exact hacc y h1
        · exact h2)
    exact h x hx

/-- Witness for C7 (amended): the root resolution state holds nothing at the
trailing-separator key of `slashEntry`. -/
theorem slash_and_size_filters_split_witness :
    dictLookup (latest_versions_in_time [slashEntry] 10) "d/" = none :=
  (slash_and_size_filters_split [slashEntry] 10 []).1 "d/" (by decide)

/-- C8: with three objects where the second transfer fails, both batch loops
still attempt the third and record its outcome; the root flow's final tally
is 2 succeeded, 1 failed.  The transfer oracles `f` and `g` abstract
`download_single_file` / `s3_client.download_file`; the per-object
`try/except` of the source is what makes each iteration total. -/
theorem batch_partial_failure_continues
    (f g : String → Option String → String → Bool) (src dd : String)
    (k1 k2 k3 : String) (v1 v2 v3 : Option String) (o1 o2 o3 : Entry)
    (hf1 : f k1 v1 (map_path_root src dd k1) = true)
    (hf2 : f k2 v2 (map_path_root src dd k2) = false)
    (hf3 : f k3 v3 (map_path_root src dd k3) = true)
    (hg1 : g o1.key o1.versionId (map_path_handler src dd o1.key) = true)
    (hg2 : g o2.key o2.versionId (map_path_handler src dd o2.key) = false)
    (hg3 : g o3.key o3.versionId (map_path_handler src dd o3.key) = true) :
    download_versioned_loop f src dd [(k1, v1), (k2, v2), (k3, v3)] =
      ([(k1, true), (k2, false), (k3, true)], 2, 1) ∧
    download_objects_loop g src dd [o1, o2, o3] =
      [(o1.key, map_path_handler src dd o1.key, true),
       (o2.key, map_path_handler src dd o2.key, false),
       (o3.key, map_path_handler src dd o3.key, true)] := by
  constructor
  · simp [download_versioned_loop, hf1, hf2, hf3]
  · simp [download_objects_loop, hg1, hg2, hg3]

/-- Witness for C8: a concrete transfer oracle failing exactly on key `"b"`
yields outcomes T, F, T and the tally (2, 1). -/
theorem batch_partial_failure_continues_witness :
    download_versioned_loop (fun k _ _ => k != "b") "" "Download"
      [("a", none), ("b", none), ("c", none)] =
      ([("a", true), ("b", false), ("c", true)], 2, 1) :=
  (batch_partial_failure_continues (fun k _ _ => k != "b") (fun k _ _ => k != "b")
    "" "Download" "a" "b" "c" none none none
    ⟨"a", 0, none, none, false⟩ ⟨"b", 0, none, none, false⟩ ⟨"c", 0, none, none, false⟩
    (by decide) (by decide) (by decide) (by decide) (by decide) (by decide)).1

/-- C9: a missing key in single-file mode is fatal and creates no local
file.  `get_object_info` raises the not-found error carrying the remote key
and the bucket name; the root `download_single_file` returns failure with no
created path; both command drivers exit with code 1 and no file. -/
theorem single_file_not_found_fatal (head : String → Option Nat)
    (bucket source : String) (dest : Option String) (hmiss : head source = none) :
    get_object_info head bucket source = Except.error (source, bucket) ∧
    download_single_file head source dest = (false, none) ∧
    root_main_download_file head source dest = (1, none) ∧
    pkg_main_download_file head bucket source dest = (1, none) := by
  refine ⟨?_, ?_, ?_, ?_⟩
  · simp [get_object_info, hmiss]
  · simp [download_single_file, hmiss]
  · simp [root_main_download_file, download_single_file, hmiss]
  · simp [pkg_main_download_file, get_object_info, hmiss]

/-- Witness for C9: a head oracle with no objects reports the error with the
requested key and bucket. -/
theorem single_file_not_found_fatal_witness :
    get_object_info (fun _ => none) "bucket" "missing.txt" =
      Except.error ("missing.txt", "bucket") :=
  (single_file_not_found_fatal (fun _ => none) "bucket" "missing.txt" none rfl).1

/-- C10: in both listing functions the returned total equals the sum of the
sizes of exactly the returned objects: `list_objects_in_prefix` over its
prefix listing, and `list_object_versions_at_timestamp` over its resolved
download set (whose entries all carry a present size, read by `getD 0`). -/
theorem totals_equal_sum_of_returned_sizes (spages : List (List SObject))
    (vpages : List ListingPage) (t : Nat) :
    ( list_objects_in_prefix spages).2 =
      (( list_objects_in_prefix spages).1.map (fun o => o.size)).sum ∧
    (list_object_versions_at_timestamp vpages t).2 =
      ((list_object_versions_at_timestamp vpages t).1.map (fun e => e.size.getD 0)).sum :=
  ⟨lop_total spages, lovFilter_total _⟩
